import Mathlib

/-!
Verification of `enigma.py` (an Enigma M3/M4 simulator) against its
natural-language specification.

Shallow embedding conventions:

* A character is a `Nat`.  Uppercase ASCII letters `'A'..'Z'` are
  `0..25` (so `ABC.index c` for such a letter is `c` itself), lowercase
  ASCII letters `'a'..'z'` are `26..51`.  Python's `str.isalpha` also
  accepts letters outside A-Za-z whose upper-case form is not in `ABC`;
  the model carries one representative such pair: `52` is `'é'` (U+00E9)
  and `53` is `'É'` (U+00C9, its upper-case, which is its own
  upper-case).  Every value `≥ 54` is a non-letter.  `str.isalpha` is
  `pyIsAlphaChar`/`pyIsAlphaStr` (false on the empty string, like
  Python), `str.upper` is `upperChar`, and `ABC.index` is `abcIndex`,
  which raises `ValueError` on `'É'`.  (Letters such as `'ß'`, whose
  upper-case has a different length, are not modelled.)
* Python strings are `List Nat`; the `dict` used for the plugboard is an
  insertion-ordered association list with overwriting insert (`dictInsert`)
  and defaulted lookup (`dictGet`).
* Raised exceptions are modelled with `Except PyErr` (or a
  `state × Option PyErr` pair for the property setters that mutate rotors
  one at a time, so that a raise happening mid-loop is observable).
* Machine integers stay in `0..25` via explicit `% 26`; Python's
  `(pos - ring) % 26` on values in `0..25` is `(pos + 26 - ring) % 26`.
-/

/-- Exception kinds raised by `enigma.py` (`RotorError` and `EnigmaError`
are the module's own classes; `ValueError`/`TypeError` are builtins). -/
inductive PyErr where
  | typeError
  | valueError
  | rotorError
  | enigmaError
deriving DecidableEq, Repr

/-- An ASCII letter (`A-Za-z`).  This is not the full `isalpha`
repertoire (see `pyIsAlphaChar`): it delimits the letters whose
upper-case form lies in `ABC`, and is used in theorem hypotheses to
describe the alphabet on which the machine operates totally. -/
def alphaChar (c : Nat) : Bool := c < 52

/-- Python `str.isalpha` on a single character: the ASCII letters plus
the modelled non-ASCII letters `'é'` (52) and `'É'` (53). -/
def pyIsAlphaChar (c : Nat) : Bool := c < 54

/-- Python `str.upper` on a single letter: identity on `A..Z`, maps
`a..z` onto `A..Z`, and maps `'é'` to `'É'` (which is its own
upper-case and lies outside `ABC`). -/
def upperChar (c : Nat) : Nat :=
  if c < 26 then c else if c < 52 then c - 26 else 53

/-- Python `str.isalpha` on a whole string: every character alphabetic
and the string nonempty (Python's `''.isalpha()` is `False`). -/
def pyIsAlphaStr (s : List Nat) : Bool := !s.isEmpty && s.all pyIsAlphaChar

/-- A nonempty string of ASCII letters: the inputs on which `upper()`
lands inside `ABC`.  Used in theorem hypotheses. -/
def asciiLetters (s : List Nat) : Bool := !s.isEmpty && s.all alphaChar

/-- Python `ABC.index(c)`: position of an uppercase letter in the alphabet,
raising `ValueError` when the character is not in `ABC`. -/
def abcIndex (c : Nat) : Except PyErr Nat :=
  if c < 26 then .ok c else .error .valueError

/-- Insertion into a Python `dict` modelled as an insertion-ordered
association list: overwrite in place if the key exists, else append. -/
def dictInsert (d : List (Nat × Nat)) (k v : Nat) : List (Nat × Nat) :=
  if d.any (fun p => p.1 == k) then
    d.map (fun p => if p.1 == k then (k, v) else p)
  else
    d ++ [(k, v)]

/-- Python `dict.get(k, dflt)`. -/
def dictGet (d : List (Nat × Nat)) (k dflt : Nat) : Nat :=
  match d.find? (fun p => p.1 == k) with
  | some p => p.2
  | none => dflt

/-- The `Rotor` class: a wiring permutation (stored as letter indices), an
optional notch set and a ring offset.  `notch` is `none` for the
non-turning rotors BETA and GAMMA (Python stores `None`). -/
structure Rotor where
  wiring : List Nat
  notch : Option (List Nat)
  ring : Nat
deriving DecidableEq, Repr

instance : Inhabited Rotor := ⟨⟨[], none, 0⟩⟩

/-- The `_InternalRotor` class: a rotor together with a position and the
cached `mapping` recomputed by `remap`. -/
structure InternalRotor where
  wiring : List Nat
  notch : Option (List Nat)
  ring : Nat
  pos : Nat
  mapping : List Nat
deriving DecidableEq, Repr

instance : Inhabited InternalRotor := ⟨⟨[], none, 0, 0, []⟩⟩

/-- The mapping computed by `_InternalRotor.remap`: shift every output
letter of the wiring by `ring`, then rotate the table left by
`(pos - ring) % 26` (Python slicing `w[k:] + w[:k]`). -/
def remapping (wiring : List Nat) (ring pos : Nat) : List Nat :=
  (wiring.map fun c => (c + ring) % 26).drop ((pos + 26 - ring) % 26) ++
    (wiring.map fun c => (c + ring) % 26).take ((pos + 26 - ring) % 26)

/-- The method `_InternalRotor.remap` applied to a rotor record. -/
def remapRotor (r : InternalRotor) : InternalRotor :=
  { r with mapping := remapping r.wiring r.ring r.pos }

/-- The method `_InternalRotor.right2left`: look up `mapping` at the
letter's index and subtract `pos` (mod 26). -/
def right2left (r : InternalRotor) (c : Nat) : Nat :=
  (r.mapping.getD (c % 26) 0 + 26 - r.pos) % 26

/-- The method `_InternalRotor.left2right`: add `pos` to the letter's index
(mod 26) and find that letter's position in `mapping`. -/
def left2right (r : InternalRotor) (c : Nat) : Nat :=
  (r.mapping.indexOf ((c + r.pos) % 26)) % 26

/-- The method `_InternalRotor.turn`: increment `pos` mod 26 and rotate the
cached mapping left by one entry (Python `mapping[1:] + mapping[0]`). -/
def turnRotor (r : InternalRotor) : InternalRotor :=
  { r with
    pos := (r.pos + 1) % 26
    mapping := r.mapping.drop 1 ++ r.mapping.take 1 }

/-- Construction of an `_InternalRotor` from a base rotor: take wiring,
notch and ring from the base, set the position, and `remap`.  The ring can
be overridden, which is what the `ringstellung` setter later does. -/
def positionRotor (b : Rotor) (ring pos : Nat) : InternalRotor :=
  { wiring := b.wiring, notch := b.notch, ring := ring, pos := pos,
    mapping := remapping b.wiring ring pos }

/-- Python `_InternalRotor(baserotor, pos)`: the ring comes from the base
rotor. -/
def mkInternal (b : Rotor) (pos : Nat) : InternalRotor :=
  positionRotor b b.ring pos

/-- Validation in `Rotor.__init__`: wiring must be 26 alphabetic characters
with no duplicate (checked before upper-casing); the stored wiring is the
upper-cased one. -/
def mkRotorWiring (w : List Nat) : Except PyErr (List Nat) :=
  if w.length ≠ 26 || !(pyIsAlphaStr w) || w.dedup.length < 26 then
    .error .rotorError
  else
    .ok (w.map upperChar)

/-- The loop in `Reflector.__init__`: for each letter `i` of the alphabet,
`w.index(ABC[i])` must exist (else Python's `str.index` raises
`ValueError`) and `w[i]` must equal `ABC[w.index(ABC[i])]`, i.e. the wiring
must be its own inverse.  There is no check that `w[i] ≠ i`. -/
def reflCheck (w : List Nat) : List Nat → Except PyErr Unit
  | [] => .ok ()
  | i :: is =>
    if !w.contains i then .error .valueError
    else if w.getD i 0 ≠ w.indexOf i then .error .rotorError
    else reflCheck w is

/-- The `Reflector` constructor: `Rotor.__init__` validation followed by
the self-inverse check. -/
def mkReflector (wiring : List Nat) : Except PyErr (List Nat) :=
  match mkRotorWiring wiring with
  | .error e => .error e
  | .ok w =>
    match reflCheck w (List.range 26) with
    | .error e => .error e
    | .ok _ => .ok w

/-- The method `_InternalReflector.reflect`: direct lookup in the wiring
after upper-casing (positions play no role). -/
def reflect (wiring : List Nat) (c : Nat) : Nat :=
  wiring.getD (upperChar c) 0

/- Named rotors, as letter-index translations of the wiring strings in
`enigma.py` (`A` = 0, ..., `Z` = 25). -/

/-- Rotor I, wiring `EKMFLGDQVZNTOWYHXUSPAIBRCJ`, notch `Q`. -/
def I : Rotor := ⟨[4,10,12,5,11,6,3,16,21,25,13,19,14,22,24,7,23,20,18,15,0,8,1,17,2,9], some [16], 0⟩

/-- Rotor II, wiring `AJDKSIRUXBLHWTMCQGZNPYFVOE`, notch `E`. -/
def II : Rotor := ⟨[0,9,3,10,18,8,17,20,23,1,11,7,22,19,12,2,16,6,25,13,15,24,5,21,14,4], some [4], 0⟩

/-- Rotor III, wiring `BDFHJLCPRTXVZNYEIWGAKMUSQO`, notch `V`. -/
def III : Rotor := ⟨[1,3,5,7,9,11,2,15,17,19,23,21,25,13,24,4,8,22,6,0,10,12,20,18,16,14], some [21], 0⟩

/-- Rotor IV, wiring `ESOVPZJAYQUIRHXLNFTGKDCMWB`, notch `J`. -/
def IV : Rotor := ⟨[4,18,14,21,15,25,9,0,24,16,20,8,17,7,23,11,13,5,19,6,10,3,2,12,22,1], some [9], 0⟩

/-- Rotor V, wiring `VZBRGITYUPSDNHLXAWMJQOFECK`, notch `Z`. -/
def V : Rotor := ⟨[21,25,1,17,6,8,19,24,20,15,18,3,13,7,11,23,0,22,12,9,16,14,5,4,2,10], some [25], 0⟩

/-- Rotor VI, wiring `JPGVOUMFYQBENHZRDKASXLICTW`, notches `Z`,`M`. -/
def VI : Rotor := ⟨[9,15,6,21,14,20,12,5,24,16,1,4,13,7,25,17,3,10,0,18,23,11,8,2,19,22], some [25,12], 0⟩

/-- Rotor VII, wiring `NZJHGRCXMYSWBOUFAIVLPEKQDT`, notches `Z`,`M`. -/
def VII : Rotor := ⟨[13,25,9,7,6,17,2,23,12,24,18,22,1,14,20,5,0,8,21,11,15,4,10,16,3,19], some [25,12], 0⟩

/-- Rotor VIII, wiring `FKQHTLXOCBJSPDZRAMEWNIUYGV`, notches `Z`,`M`. -/
def VIII : Rotor := ⟨[5,10,16,7,19,11,23,14,2,1,9,18,15,3,25,17,0,12,4,22,13,8,20,24,6,21], some [25,12], 0⟩

/-- Rotor BETA, wiring `LEYJVCNIXWPBQMDRTAKZGFUHOS`, no notch. -/
def BETA : Rotor := ⟨[11,4,24,9,21,2,13,8,23,22,15,1,16,12,3,17,19,0,10,25,6,5,20,7,14,18], none, 0⟩

/-- Rotor GAMMA, wiring `FSOKANUERHMBTIYCWLQPZXVGJD`, no notch. -/
def GAMMA : Rotor := ⟨[5,18,14,10,0,13,20,4,17,7,12,1,19,8,24,2,22,11,16,15,25,23,21,6,9,3], none, 0⟩

/-- Reflector B, wiring `YRUHQSLDPXNGOKMIEBFZCWVJAT`. -/
def UKWB : List Nat := [24,17,20,7,16,18,11,3,15,23,13,6,14,10,12,8,4,1,5,25,2,22,21,9,0,19]

/-- Reflector C, wiring `FVPJIAOYEDRZXWGCTKUQSBNMHL`. -/
def UKWC : List Nat := [5,21,15,9,8,0,14,24,4,3,17,25,23,22,6,2,19,10,20,16,18,1,13,12,7,11]

/-- Thin reflector B, wiring `ENKQAUYWJICOPBLMDXZVFTHRGS`. -/
def UKWB_THIN : List Nat := [4,13,10,16,0,20,24,22,9,8,2,14,15,1,11,12,3,23,25,21,5,19,7,17,6,18]

/-- Thin reflector C, wiring `RDOBJNTKVEHMLFCWZAXGYIPSUQ`. -/
def UKWC_THIN : List Nat := [17,3,14,1,9,13,19,10,21,4,7,12,11,5,2,22,25,0,23,6,24,8,15,18,20,16]

/-- The machine: an ordered list of positioned rotors (leftmost first, as
in `Enigma._rotors`), the internal reflector's wiring, the plugboard dict
and the double-step flag. -/
structure Enigma where
  rotors : List InternalRotor
  reflector : List Nat
  plugboard : List (Nat × Nat)
  doublestep : Bool
deriving DecidableEq, Repr

instance : Inhabited Enigma := ⟨⟨[], [], [], true⟩⟩

/-- The loop of the `grundstellung` setter: for each rotor in `zip` order,
set `pos := ABC.index(p)` and `remap`.  A `ValueError` from `ABC.index`
surfaces together with the rotors mutated so far (Python mutates in
place), which is why the state is returned alongside the error. -/
def setPositionsSt : List InternalRotor → List Nat → List InternalRotor × Option PyErr
  | rs, [] => (rs, none)
  | [], _ :: _ => ([], none)
  | r :: rs, p :: ps =>
    match abcIndex p with
    | .error e => (r :: rs, some e)
    | .ok i =>
      let r' := remapRotor { r with pos := i }
      let (rs', e?) := setPositionsSt rs ps
      (r' :: rs', e?)

/-- The `grundstellung` property setter: check `isalpha`, then the length,
then set each rotor's position from the upper-cased string. -/
def setGrundstellung (rs : List InternalRotor) (g : List Nat) :
    List InternalRotor × Option PyErr :=
  if !(pyIsAlphaStr g) then (rs, some .valueError)
  else if g.length ≠ rs.length then (rs, some .enigmaError)
  else setPositionsSt rs (g.map upperChar)

/-- The loop of the `ringstellung` setter: for each rotor in `zip` order,
set `ring := ABC.index(p)` and `remap`. -/
def setRingsSt : List InternalRotor → List Nat → List InternalRotor × Option PyErr
  | rs, [] => (rs, none)
  | [], _ :: _ => ([], none)
  | r :: rs, p :: ps =>
    match abcIndex p with
    | .error e => (r :: rs, some e)
    | .ok i =>
      let r' := remapRotor { r with ring := i }
      let (rs', e?) := setRingsSt rs ps
      (r' :: rs', e?)

/-- The `ringstellung` property setter: check the length, then `isalpha`,
then set each rotor's ring from the upper-cased string. -/
def setRingstellung (rs : List InternalRotor) (g : List Nat) :
    List InternalRotor × Option PyErr :=
  if rs.length ≠ g.length then (rs, some .enigmaError)
  else if !(pyIsAlphaStr g) then (rs, some .valueError)
  else setRingsSt rs (g.map upperChar)

/-- One step of the plugboard-building loop: skip self-paired letters
(compared before upper-casing), otherwise insert both directions of the
upper-cased pair into the dict. -/
def plugUpd (d : List (Nat × Nat)) (pair : List Nat) : List (Nat × Nat) :=
  match pair with
  | [a, b] =>
    if a == b then d
    else dictInsert (dictInsert d (upperChar a) (upperChar b)) (upperChar b) (upperChar a)
  | _ => d

/-- The `plugboard` property setter: an empty iterable clears the board;
otherwise every entry must have length 2, the concatenation must be
alphabetic, and no character may repeat (Python counts characters
case-sensitively, before any upper-casing); then the dict is rebuilt. -/
def setPlugboard (pairs : List (List Nat)) : Except PyErr (List (Nat × Nat)) :=
  if pairs.isEmpty then .ok []
  else
    let plugstr := pairs.flatten
    if pairs.any (fun p => p.length ≠ 2) || !(pyIsAlphaStr plugstr) then
      .error .valueError
    else if plugstr.any (fun c => plugstr.count c > 1) then
      .error .valueError
    else
      .ok (pairs.foldl plugUpd [])

/-- The `rotors` property setter: 3 rotors must avoid BETA/GAMMA and thin
reflectors; with 4 rotors the leftmost must be BETA or GAMMA and the
reflector must not be UKWB/UKWC; anything else is an error.  On success
every rotor is wrapped in a fresh `_InternalRotor` at position `A`.
(`_InternalRotor.__init__` re-validates the base rotor's fields; for
`Rotor` values produced by the validated constructor this never fails.) -/
def setRotors (reflector : List Nat) (rotors : List Rotor) :
    Except PyErr (List InternalRotor) :=
  if rotors.length = 3 then
    if rotors.contains BETA || rotors.contains GAMMA then .error .enigmaError
    else if reflector = UKWB_THIN || reflector = UKWC_THIN then .error .enigmaError
    else .ok (rotors.map (fun r => mkInternal r 0))
  else if rotors.length = 4 then
    if !(rotors.getD 0 default == BETA || rotors.getD 0 default == GAMMA) then
      .error .enigmaError
    else if reflector = UKWB || reflector = UKWC then .error .enigmaError
    else .ok (rotors.map (fun r => mkInternal r 0))
  else .error .enigmaError

/-- The test `rotor.pos in rotor.notch`: raises `TypeError` when `notch`
is `None` (Python: argument of type `NoneType` is not iterable). -/
def atNotchTest (r : InternalRotor) : Except PyErr Bool :=
  match r.notch with
  | none => .error .typeError
  | some ns => .ok (ns.contains r.pos)

/-- The notch test applied to the rotor at index `i`. -/
def notchTest (rs : List InternalRotor) (i : Nat) : Except PyErr Bool :=
  atNotchTest (rs.getD i default)

/-- Turn the rotor at index `i` (Python `self._rotors[i].turn()`). -/
def turnAt (rs : List InternalRotor) (i : Nat) : List InternalRotor :=
  rs.set i (turnRotor (rs.getD i default))

/-- The `elif` part of the stepping rule in `Enigma.encode`: if the
rightmost rotor sits at a notch, the middle rotor turns, dragging the
third-from-right rotor along when it is itself at a notch. -/
def carryStep (rs : List InternalRotor) : Except PyErr (List InternalRotor) :=
  let n := rs.length
  match notchTest rs (n - 1) with
  | .error e => .error e
  | .ok true =>
    match notchTest rs (n - 2) with
    | .error e => .error e
    | .ok true => .ok (turnAt (turnAt rs (n - 3)) (n - 2))
    | .ok false => .ok (turnAt rs (n - 2))
  | .ok false => .ok rs

/-- The full per-character stepping rule: the double-step branch first
(only when `doublestep` is set; Python's `and` short-circuits, so the
middle rotor's notch is not inspected when `doublestep` is false), then
the carry branch, and finally the rightmost rotor always turns. -/
def stepRotors (ds : Bool) (rs : List InternalRotor) :
    Except PyErr (List InternalRotor) :=
  let n := rs.length
  let stepped : Except PyErr (List InternalRotor) :=
    if ds then
      match notchTest rs (n - 2) with
      | .error e => .error e
      | .ok true => .ok (turnAt (turnAt rs (n - 2)) (n - 3))
      | .ok false => carryStep rs
    else carryStep rs
  match stepped with
  | .error e => .error e
  | .ok rs2 => .ok (turnAt rs2 (n - 1))

/-- The signal path of one character (after stepping): plugboard, rotors
right to left, reflector, rotors left to right, plugboard. -/
def encodeChar (pb : List (Nat × Nat)) (refl : List Nat)
    (rs : List InternalRotor) (c : Nat) : Nat :=
  let c0 := dictGet pb c c
  let c1 := List.foldr (fun r ch => right2left r ch) c0 rs
  let c2 := reflect refl c1
  let c3 := rs.foldl (fun ch r => left2right r ch) c2
  dictGet pb c3 c3

/-- The signal path of one character, with the `ValueError` that Python
raises when the character is outside `ABC` after the plugboard: the first
rotor's `right2left` calls `ABC.index(char)`, which fails exactly when
the post-plugboard character is not an uppercase ASCII letter — possible
for the non-ASCII letters, which pass `isalpha` but upper-case outside
`ABC`.  (With no rotors the reflector's own `ABC.index` raises the same
error.)  Every later `ABC.index` call operates on rotor or reflector
outputs, which for wirings stored by the validated constructors are
always `ABC` letters, so no further check arises. -/
def encodeCharChecked (pb : List (Nat × Nat)) (refl : List Nat)
    (rs : List InternalRotor) (c : Nat) : Except PyErr Nat :=
  if dictGet pb c c < 26 then .ok (encodeChar pb refl rs c)
  else .error .valueError

/-- The character loop of `Enigma.encode`: step the rotors, push the
character through the signal path (raising `ValueError` on a character
outside `ABC`), accumulate the ciphertext. -/
def encodeLoop (ds : Bool) (pb : List (Nat × Nat)) (refl : List Nat) :
    List InternalRotor → List Nat →
    Except PyErr (List InternalRotor × List Nat)
  | rs, [] => .ok (rs, [])
  | rs, c :: cs =>
    match stepRotors ds rs with
    | .error e => .error e
    | .ok rs1 =>
      match encodeCharChecked pb refl rs1 c with
      | .error e => .error e
      | .ok c1 =>
        match encodeLoop ds pb refl rs1 cs with
        | .error e => .error e
        | .ok (rsf, out) => .ok (rsf, c1 :: out)

/-- The method `Enigma.encode`: validate the message with `isalpha`,
optionally reassign the grundstellung (skipped when the argument is empty,
matching Python's truthiness test on `None`/`''`), then encode the
upper-cased message character by character.  The updated machine is
returned alongside the ciphertext, standing for the mutation of `self`. -/
def encode (m : Enigma) (message : List Nat) (grundstellung : List Nat) :
    Except PyErr (Enigma × List Nat) :=
  if !(pyIsAlphaStr message) then .error .enigmaError
  else
    let (rs0, e?) :=
      if grundstellung.isEmpty then (m.rotors, none)
      else setGrundstellung m.rotors grundstellung
    match e? with
    | some e => .error e
    | none =>
      match encodeLoop m.doublestep m.plugboard m.reflector rs0
          (message.map upperChar) with
      | .error e => .error e
      | .ok (rsf, out) => .ok ({ m with rotors := rsf }, out)

/-- The `grundstellung` property getter: the current positions as a string
of letters. -/
def grundstellungOf (rs : List InternalRotor) : List Nat := rs.map (·.pos)

/-- The `Enigma.__init__` constructor: assign reflector, rotors,
ringstellung (defaulting to all `A`), grundstellung (likewise), and the
plugboard, propagating the first error. -/
def mkEnigma (rotors : List Rotor) (reflector : List Nat)
    (ringstellung : List Nat) (plugboard : List (List Nat))
    (doublestep : Bool) (grundstellung : List Nat) : Except PyErr Enigma :=
  match mkReflector reflector with
  | .error e => .error e
  | .ok rw =>
    match setRotors rw rotors with
    | .error e => .error e
    | .ok irs =>
      let ringst := if ringstellung.isEmpty then List.replicate rotors.length 0
                    else ringstellung
      match setRingstellung irs ringst with
      | (_, some e) => .error e
      | (irs1, none) =>
        let grund := if grundstellung.isEmpty then List.replicate rotors.length 0
                     else grundstellung
        match setGrundstellung irs1 grund with
        | (_, some e) => .error e
        | (irs2, none) =>
          match setPlugboard plugboard with
          | .error e => .error e
          | .ok pb => .ok ⟨irs2, rw, pb, doublestep⟩

/-- Composition used by the encode/decode-symmetry property: encode, reset
to the same start position, encode again. -/
def doubleEncode (m : Enigma) (msg P : List Nat) : Except PyErr (List Nat) :=
  match encode m msg P with
  | .error e => .error e
  | .ok (m1, ct) =>
    match encode m1 ct P with
    | .error e => .error e
    | .ok (_, pt) => .ok pt

/-- Ciphertext projection of `encode`. -/
def encodeOut (m : Enigma) (msg P : List Nat) : Except PyErr (List Nat) :=
  match encode m msg P with
  | .error e => .error e
  | .ok (_, out) => .ok out

/-- Final rotor positions after an `encode` call, as the `grundstellung`
getter would display them. -/
def encodeFinalPositions (m : Enigma) (msg P : List Nat) :
    Except PyErr (List Nat) :=
  match encode m msg P with
  | .error e => .error e
  | .ok (m1, _) => .ok (grundstellungOf m1.rotors)

/-- The machine `Enigma(rotors=(I, II, III), reflector=UKWB)` with default
ring settings, start positions, empty plugboard and double-stepping on. -/
def e3 : Enigma :=
  ⟨[mkInternal I 0, mkInternal II 0, mkInternal III 0], UKWB, [], true⟩

/-- The same three-rotor machine with `doublestep=False`. -/
def e3nods : Enigma :=
  ⟨[mkInternal I 0, mkInternal II 0, mkInternal III 0], UKWB, [], false⟩

/-- The machine `Enigma((BETA, V, VI, VIII), reflector=UKWC_THIN,
ringstellung='EPEL', plugboard=['AE','BF','CM','DQ','HU','JN','LX','PR',
'SZ','VW'], doublestep=True)`. -/
def m4 : Enigma :=
  ⟨[positionRotor BETA 4 0, positionRotor V 15 0, positionRotor VI 4 0,
    positionRotor VIII 11 0], UKWC_THIN,
   [(0,4),(4,0),(1,5),(5,1),(2,12),(12,2),(3,16),(16,3),(7,20),(20,7),
    (9,13),(13,9),(11,23),(23,11),(15,17),(17,15),(18,25),(25,18),
    (21,22),(22,21)], true⟩

/-- A 4-rotor machine that the constructor accepts although its rightmost
rotor GAMMA has no notch set: `Enigma((BETA, I, II, GAMMA), UKWC_THIN)`. -/
def mBad : Enigma :=
  ⟨[mkInternal BETA 0, mkInternal I 0, mkInternal II 0, mkInternal GAMMA 0],
   UKWC_THIN, [], true⟩

/-! ## Invariant predicates -/

/-- A rotor mapping in valid state: 26 pairwise distinct entries below 26
(that is, a permutation of the alphabet). -/
def PermMapping (M : List Nat) : Prop :=
  M.length = 26 ∧ M.Nodup ∧ ∀ x ∈ M, x < 26

instance (M : List Nat) : Decidable (PermMapping M) := by
  unfold PermMapping; infer_instance

/-- Invariant of an `_InternalRotor` as maintained by the machine: the
wiring is a permutation, ring and position are letter indices, and the
cached mapping agrees with a full `remap`. -/
def RotorInv (r : InternalRotor) : Prop :=
  PermMapping r.wiring ∧ r.ring < 26 ∧ r.pos < 26 ∧
    r.mapping = remapping r.wiring r.ring r.pos

instance (r : InternalRotor) : Decidable (RotorInv r) := by
  unfold RotorInv; infer_instance

/-- The fields of an `_InternalRotor` that no machine operation ever
rewrites: wiring, notch set and ring (`turn` and the position setter touch
only `pos` and `mapping`; the ring setter is not called during `encode`). -/
def rotorCore (r : InternalRotor) : List Nat × Option (List Nat) × Nat :=
  (r.wiring, r.notch, r.ring)

/-- Two rotor banks agreeing on all static fields, position by position. -/
def coreEq (rs rs' : List InternalRotor) : Prop :=
  rs.map rotorCore = rs'.map rotorCore

/-- Pointwise rotor invariant over a rotor bank. -/
def RotorsInv (rs : List InternalRotor) : Prop := ∀ r ∈ rs, RotorInv r

instance (rs : List InternalRotor) : Decidable (RotorsInv rs) := by
  unfold RotorsInv; infer_instance

/-- What the stepping rule needs in order not to raise: at least three
rotors, and defined notch sets on the two rightmost rotors (the only ones
whose `pos in notch` test is ever evaluated). -/
def StepSafe (rs : List InternalRotor) : Prop :=
  3 ≤ rs.length ∧
    ((rs.getD (rs.length - 1) default).notch).isSome = true ∧
    ((rs.getD (rs.length - 2) default).notch).isSome = true

instance (rs : List InternalRotor) : Decidable (StepSafe rs) := by
  unfold StepSafe; infer_instance

/-- Invariant of a stored reflector wiring: a table of 26 letters that is
its own inverse. -/
def ReflOk (w : List Nat) : Prop :=
  w.length = 26 ∧ (∀ x ∈ w, x < 26) ∧ ∀ i < 26, w.getD (w.getD i 0) 0 = i

instance (w : List Nat) : Decidable (ReflOk w) := by
  unfold ReflOk; infer_instance

/-- Invariant of the plugboard dict as the signal path uses it: applying
it twice is the identity on letters and it maps letters to letters. -/
def PlugOk (pb : List (Nat × Nat)) : Prop :=
  ∀ c < 26, dictGet pb c c < 26 ∧
    dictGet pb (dictGet pb c c) (dictGet pb c c) = c

instance (pb : List (Nat × Nat)) : Decidable (PlugOk pb) := by
  unfold PlugOk; infer_instance

/-- Machine invariant: the constraints that a well-formed Enigma instance
maintains (3 or 4 rotors with defined notch sets on the two rightmost
slots, consistent rotor caches, an involutive reflector wiring, and an
involutive plugboard). -/
def EnigmaInv (m : Enigma) : Prop :=
  (m.rotors.length = 3 ∨ m.rotors.length = 4) ∧ RotorsInv m.rotors ∧
    StepSafe m.rotors ∧ ReflOk m.reflector ∧ PlugOk m.plugboard

instance (m : Enigma) : Decidable (EnigmaInv m) := by
  unfold EnigmaInv; infer_instance

/-! ## List helper lemmas -/

/-- Setting one index leaves `getD` at other indices unchanged. -/
theorem getD_set_ne {α : Type} (l : List α) (i j : Nat) (x d : α) (h : i ≠ j) :
    (l.set i x).getD j d = l.getD j d := by
  induction l generalizing i j with
  | nil => simp
  | cons a tl ih =>
    cases i with
    | zero =>
      cases j with
      | zero => exact absurd rfl h
      | succ j => simp [List.getD_cons_succ]
    | succ i =>
      cases j with
      | zero => simp [List.getD_cons_zero]
      | succ j => simpa [List.getD_cons_succ] using ih i j (by omega)

/-- Setting an index in range is read back by `getD`. -/
theorem getD_set_self {α : Type} (l : List α) (i : Nat) (x d : α)
    (h : i < l.length) : (l.set i x).getD i d = x := by
  induction l generalizing i with
  | nil => simp at h
  | cons a tl ih =>
    cases i with
    | zero => simp [List.getD_cons_zero]
    | succ i => simpa [List.getD_cons_succ] using ih i (by simpa using h)

/-- Writing back the current value of an index is the identity. -/
theorem set_getD_self {α : Type} (l : List α) (i : Nat) (d : α) :
    l.set i (l.getD i d) = l := by
  induction l generalizing i with
  | nil => simp
  | cons a tl ih =>
    cases i with
    | zero => simp [List.getD_cons_zero]
    | succ i => simpa [List.getD_cons_succ] using ih i

/-- `getD` commutes with `map` when the default is mapped as well. -/
theorem getD_map {α β : Type} (f : α → β) (l : List α) (i : Nat) (d : α) :
    (l.map f).getD i (f d) = f (l.getD i d) := by
  induction l generalizing i with
  | nil => simp
  | cons a tl ih =>
    cases i with
    | zero => simp [List.getD_cons_zero]
    | succ i => simp [List.getD_cons_succ, ih i]

/-! ## Permutation facts about rotor mappings -/

/-- A permutation of the alphabet contains every letter. -/
theorem permMapping_mem {M : List Nat} (h : PermMapping M) {v : Nat}
    (hv : v < 26) : v ∈ M := by
  obtain ⟨hlen, hnd, hlt⟩ := h
  have hsub : M.toFinset ⊆ Finset.range 26 := by
    intro x hx
    rw [Finset.mem_range]
    exact hlt x (List.mem_toFinset.1 hx)
  have hcard : (Finset.range 26).card ≤ M.toFinset.card := by
    rw [Finset.card_range, List.toFinset_card_of_nodup hnd, hlen]
  have hEq := Finset.eq_of_subset_of_card_le hsub hcard
  rw [← List.mem_toFinset, hEq, Finset.mem_range]
  exact hv

/-- The slicing in `remap` is a left rotation of the ring-shifted wiring. -/
theorem remapping_eq_rotate (w : List Nat) (ring pos : Nat)
    (hlen : w.length = 26) :
    remapping w ring pos =
      (w.map fun c => (c + ring) % 26).rotate ((pos + 26 - ring) % 26) := by
  have h : (pos + 26 - ring) % 26 ≤ (w.map fun c => (c + ring) % 26).length := by
    rw [List.length_map, hlen]
    omega
  rw [remapping, List.rotate_eq_drop_append_take h]

/-- `remap` turns a permutation wiring into a permutation mapping. -/
theorem permMapping_remapping {w : List Nat} (hw : PermMapping w)
    (ring pos : Nat) : PermMapping (remapping w ring pos) := by
  obtain ⟨hlen, hnd, hlt⟩ := hw
  rw [remapping_eq_rotate w ring pos hlen]
  refine ⟨?_, ?_, ?_⟩
  · rw [List.length_rotate, List.length_map, hlen]
  · rw [List.nodup_rotate]
    refine List.Nodup.map_on ?_ hnd
    intro x hx y hy hxy
    have hx' := hlt x hx
    have hy' := hlt y hy
    omega
  · intro x hx
    rw [List.mem_rotate] at hx
    obtain ⟨y, _, rfl⟩ := List.mem_map.1 hx
    exact Nat.mod_lt _ (by norm_num)

/-! ## Involution of the two half-transforms -/

theorem right2left_lt (r : InternalRotor) (c : Nat) : right2left r c < 26 :=
  Nat.mod_lt _ (by norm_num)

theorem left2right_lt (r : InternalRotor) (c : Nat) : left2right r c < 26 :=
  Nat.mod_lt _ (by norm_num)

/-- Going right to left and then left to right restores the letter. -/
theorem left2right_right2left {r : InternalRotor}
    (hmap : PermMapping r.mapping) (hp : r.pos < 26) {c : Nat} (hc : c < 26) :
    left2right r (right2left r c) = c := by
  obtain ⟨hlen, hnd, hlt⟩ := hmap
  have hcl : c % 26 < r.mapping.length := by rw [hlen]; omega
  have hmlt : r.mapping[c % 26] < 26 := hlt _ (List.getElem_mem hcl)
  simp only [right2left, left2right]
  rw [List.getD_eq_getElem _ _ hcl]
  have harith : ((r.mapping[c % 26] + 26 - r.pos) % 26 + r.pos) % 26 =
      r.mapping[c % 26] := by omega
  rw [harith, List.indexOf_getElem hnd _ hcl]
  omega

/-- Going left to right and then right to left restores the letter. -/
theorem right2left_left2right {r : InternalRotor}
    (hmap : PermMapping r.mapping) (hp : r.pos < 26) {c : Nat} (hc : c < 26) :
    right2left r (left2right r c) = c := by
  have hmem : (c + r.pos) % 26 ∈ r.mapping :=
    permMapping_mem hmap (Nat.mod_lt _ (by norm_num))
  obtain ⟨hlen, hnd, hlt⟩ := hmap
  have hidx : r.mapping.indexOf ((c + r.pos) % 26) < r.mapping.length :=
    List.indexOf_lt_length.2 hmem
  have hidx26 : r.mapping.indexOf ((c + r.pos) % 26) < 26 := by
    rwa [hlen] at hidx
  simp only [right2left, left2right]
  have h1 : r.mapping.indexOf ((c + r.pos) % 26) % 26 % 26 =
      r.mapping.indexOf ((c + r.pos) % 26) := by omega
  rw [h1, List.getD_eq_getElem _ _ hidx, List.getElem_indexOf hidx]
  omega

/-! ## Rotor state invariant -/

theorem RotorInv.mapping_perm {r : InternalRotor} (h : RotorInv r) :
    PermMapping r.mapping := by
  obtain ⟨hw, _, _, hm⟩ := h
  rw [hm]
  exact permMapping_remapping hw _ _

theorem rotorInv_l2r_r2l {r : InternalRotor} (h : RotorInv r) {c : Nat}
    (hc : c < 26) : left2right r (right2left r c) = c :=
  left2right_right2left h.mapping_perm h.2.2.1 hc

theorem rotorInv_r2l_l2r {r : InternalRotor} (h : RotorInv r) {c : Nat}
    (hc : c < 26) : right2left r (left2right r c) = c :=
  right2left_left2right h.mapping_perm h.2.2.1 hc

/-! ## The incremental `turn` against the full `remap` -/

/-- Rotating a remapped table left by one is the remapped table of the
incremented position. -/
theorem turn_mapping {w : List Nat} (hlen : w.length = 26) {ring pos : Nat}
    (hr : ring < 26) (hp : pos < 26) :
    (remapping w ring pos).drop 1 ++ (remapping w ring pos).take 1 =
      remapping w ring ((pos + 1) % 26) := by
  have hlm : (w.map fun c => (c + ring) % 26).length = 26 := by
    rw [List.length_map, hlen]
  rw [remapping_eq_rotate w ring pos hlen,
    remapping_eq_rotate w ring ((pos + 1) % 26) hlen]
  have h1 : (1 : Nat) ≤
      ((w.map fun c => (c + ring) % 26).rotate ((pos + 26 - ring) % 26)).length := by
    rw [List.length_rotate, hlm]
    omega
  rw [← List.rotate_eq_drop_append_take h1, List.rotate_rotate]
  rw [← List.rotate_mod _ ((pos + 26 - ring) % 26 + 1),
    ← List.rotate_mod _ (((pos + 1) % 26 + 26 - ring) % 26), hlm]
  congr 1
  omega

/-- A rotor that satisfies the invariant still does after `turn`. -/
theorem rotorInv_turn {r : InternalRotor} (h : RotorInv r) :
    RotorInv (turnRotor r) := by
  obtain ⟨hw, hr, hp, hm⟩ := h
  refine ⟨hw, hr, Nat.mod_lt _ (by norm_num), ?_⟩
  show r.mapping.drop 1 ++ r.mapping.take 1 = remapping r.wiring r.ring ((r.pos + 1) % 26)
  rw [hm]
  exact turn_mapping hw.1 hr hp

/-! ## Machine-level invariants -/

theorem coreEq_refl (rs : List InternalRotor) : coreEq rs rs := rfl

theorem coreEq_symm {rs rs' : List InternalRotor} (h : coreEq rs rs') :
    coreEq rs' rs := h.symm

theorem coreEq_trans {a b c : List InternalRotor} (h1 : coreEq a b)
    (h2 : coreEq b c) : coreEq a c := h1.trans h2

theorem coreEq_length {rs rs' : List InternalRotor} (h : coreEq rs rs') :
    rs.length = rs'.length := by
  have := congrArg List.length h
  simpa using this

theorem coreEq_getD {rs rs' : List InternalRotor} (h : coreEq rs rs')
    (i : Nat) : rotorCore (rs.getD i default) = rotorCore (rs'.getD i default) := by
  have h1 := getD_map rotorCore rs i default
  have h2 := getD_map rotorCore rs' i default
  rw [← h1, ← h2, h]

theorem coreEq_notch {rs rs' : List InternalRotor} (h : coreEq rs rs')
    (i : Nat) : (rs.getD i default).notch = (rs'.getD i default).notch := by
  have := coreEq_getD h i
  simpa [rotorCore] using congrArg (fun p => p.2.1) this

/-- Turning a rotor in place does not change any static field. -/
theorem coreEq_turnAt (rs : List InternalRotor) (i : Nat) :
    coreEq rs (turnAt rs i) := by
  show rs.map rotorCore = (rs.set i (turnRotor (rs.getD i default))).map rotorCore
  rw [List.map_set]
  have hcore : rotorCore (turnRotor (rs.getD i default)) =
      rotorCore (rs.getD i default) := rfl
  rw [hcore, ← getD_map rotorCore rs i default, set_getD_self]

theorem rotorsInv_turnAt {rs : List InternalRotor} (h : RotorsInv rs)
    (i : Nat) : RotorsInv (turnAt rs i) := by
  intro r hr
  rcases List.mem_or_eq_of_mem_set hr with hmem | rfl
  · exact h r hmem
  · by_cases hi : i < rs.length
    · have : rs.getD i default ∈ rs := by
        rw [List.getD_eq_getElem _ _ hi]
        exact List.getElem_mem hi
      exact rotorInv_turn (h _ this)
    · rw [turnAt, List.set_eq_of_length_le (by omega)] at hr
      exact h _ hr

/-! ## Stepping -/

theorem stepSafe_of_coreEq {rs rs' : List InternalRotor} (hc : coreEq rs rs')
    (hs : StepSafe rs) : StepSafe rs' := by
  obtain ⟨h3, h1, h2⟩ := hs
  have hl := coreEq_length hc
  refine ⟨by omega, ?_, ?_⟩
  · rw [← hl, ← coreEq_notch hc]
    exact h1
  · rw [← hl, ← coreEq_notch hc]
    exact h2

/-- Computation rule for a notch test on a rotor with a defined notch. -/
theorem notchTest_some {rs : List InternalRotor} {i : Nat} {ns : List Nat}
    (h : (rs.getD i default).notch = some ns) :
    notchTest rs i = .ok (ns.contains (rs.getD i default).pos) := by
  unfold notchTest atNotchTest
  rw [h]

theorem carryStep_ok (rs : List InternalRotor) (hs : StepSafe rs) :
    ∃ rs', carryStep rs = .ok rs' ∧ coreEq rs rs' ∧
      (RotorsInv rs → RotorsInv rs') := by
  obtain ⟨h3, h1some, h2some⟩ := hs
  obtain ⟨ns1, hn1⟩ := Option.isSome_iff_exists.1 h1some
  obtain ⟨ns2, hn2⟩ := Option.isSome_iff_exists.1 h2some
  cases hb1 : ns1.contains (rs.getD (rs.length - 1) default).pos with
  | false =>
    refine ⟨rs, ?_, coreEq_refl rs, id⟩
    simp only [carryStep]
    rw [notchTest_some hn1, hb1]
  | true =>
    cases hb2 : ns2.contains (rs.getD (rs.length - 2) default).pos with
    | false =>
      refine ⟨turnAt rs (rs.length - 2), ?_, coreEq_turnAt _ _,
        fun h => rotorsInv_turnAt h _⟩
      simp only [carryStep]
      rw [notchTest_some hn1, hb1, notchTest_some hn2, hb2]
    | true =>
      refine ⟨turnAt (turnAt rs (rs.length - 3)) (rs.length - 2), ?_,
        coreEq_trans (coreEq_turnAt _ _) (coreEq_turnAt _ _),
        fun h => rotorsInv_turnAt (rotorsInv_turnAt h _) _⟩
      simp only [carryStep]
      rw [notchTest_some hn1, hb1, notchTest_some hn2, hb2]

theorem stepRotors_ok (ds : Bool) (rs : List InternalRotor) (hs : StepSafe rs) :
    ∃ rs', stepRotors ds rs = .ok rs' ∧ coreEq rs rs' ∧
      (RotorsInv rs → RotorsInv rs') := by
  obtain ⟨rsc, hc, hcore, hinv⟩ := carryStep_ok rs hs
  obtain ⟨h3, h1some, h2some⟩ := hs
  obtain ⟨ns2, hn2⟩ := Option.isSome_iff_exists.1 h2some
  cases ds with
  | false =>
    refine ⟨turnAt rsc (rs.length - 1), ?_, ?_, ?_⟩
    · simp only [stepRotors]
      rw [hc]
      rfl
    · exact coreEq_trans hcore (coreEq_turnAt _ _)
    · intro h
      exact rotorsInv_turnAt (hinv h) _
  | true =>
    cases hb2 : ns2.contains (rs.getD (rs.length - 2) default).pos with
    | true =>
      refine ⟨turnAt (turnAt (turnAt rs (rs.length - 2)) (rs.length - 3))
        (rs.length - 1), ?_, ?_, ?_⟩
      · simp only [stepRotors]
        rw [notchTest_some hn2, hb2]
        rfl
      · exact coreEq_trans (coreEq_turnAt _ _)
          (coreEq_trans (coreEq_turnAt _ _) (coreEq_turnAt _ _))
      · intro h
        exact rotorsInv_turnAt (rotorsInv_turnAt (rotorsInv_turnAt h _) _) _
    | false =>
      refine ⟨turnAt rsc (rs.length - 1), ?_, ?_, ?_⟩
      · simp only [stepRotors]
        rw [notchTest_some hn2, hb2, hc]
        rfl
      · exact coreEq_trans hcore (coreEq_turnAt _ _)
      · intro h
        exact rotorsInv_turnAt (hinv h) _

/-! ## Reflector and plugboard invariants -/

theorem upperChar_lt26 {c : Nat} (hc : c < 26) : upperChar c = c := by
  unfold upperChar
  exact if_pos hc

theorem upperChar_lt_of_lt52 {c : Nat} (hc : c < 52) : upperChar c < 26 := by
  unfold upperChar
  rcases Nat.lt_or_ge c 26 with h | h
  · rw [if_pos h]
    omega
  · rw [if_neg (by omega), if_pos hc]
    omega

theorem reflect_lt {w : List Nat} (h : ReflOk w) {c : Nat} (hc : c < 26) :
    reflect w c < 26 := by
  obtain ⟨hlen, hlt, _⟩ := h
  rw [reflect, upperChar_lt26 hc]
  have hcl : c < w.length := by omega
  rw [List.getD_eq_getElem _ _ hcl]
  exact hlt _ (List.getElem_mem hcl)

theorem reflect_reflect {w : List Nat} (h : ReflOk w) {c : Nat} (hc : c < 26) :
    reflect w (reflect w c) = c := by
  have h1 : reflect w c < 26 := reflect_lt h hc
  obtain ⟨hlen, hlt, hinv⟩ := h
  simp only [reflect] at h1 ⊢
  rw [upperChar_lt26 hc] at h1 ⊢
  rw [upperChar_lt26 h1]
  exact hinv c hc

/-! ## The per-character signal path is an involution -/

theorem foldr_r2l_lt (rs : List InternalRotor) {c : Nat} (hc : c < 26) :
    List.foldr (fun r ch => right2left r ch) c rs < 26 := by
  cases rs with
  | nil => exact hc
  | cons r tl =>
    rw [List.foldr_cons]
    exact right2left_lt _ _

theorem foldl_l2r_lt (rs : List InternalRotor) {c : Nat} (hc : c < 26) :
    rs.foldl (fun ch r => left2right r ch) c < 26 := by
  induction rs generalizing c with
  | nil => exact hc
  | cons r tl ih =>
    rw [List.foldl_cons]
    exact ih (left2right_lt _ _)

theorem foldl_foldr_inverse (rs : List InternalRotor) (h : RotorsInv rs)
    {c : Nat} (hc : c < 26) :
    rs.foldl (fun ch r => left2right r ch)
      (List.foldr (fun r ch => right2left r ch) c rs) = c := by
  induction rs generalizing c with
  | nil => simp
  | cons r tl ih =>
    rw [List.foldr_cons, List.foldl_cons]
    have hR : List.foldr (fun r ch => right2left r ch) c tl < 26 :=
      foldr_r2l_lt tl hc
    rw [rotorInv_l2r_r2l (h r (by simp)) hR]
    exact ih (fun x hx => h x (by simp [hx])) hc

theorem foldr_foldl_inverse (rs : List InternalRotor) (h : RotorsInv rs)
    {c : Nat} (hc : c < 26) :
    List.foldr (fun r ch => right2left r ch)
      (rs.foldl (fun ch r => left2right r ch) c) rs = c := by
  induction rs generalizing c with
  | nil => simp
  | cons r tl ih =>
    rw [List.foldl_cons, List.foldr_cons]
    rw [ih (fun x hx => h x (by simp [hx])) (left2right_lt r c)]
    exact rotorInv_r2l_l2r (h r (by simp)) hc

theorem encodeChar_lt {pb : List (Nat × Nat)} {refl : List Nat}
    (rs : List InternalRotor) (hrefl : ReflOk refl) (hpb : PlugOk pb)
    {c : Nat} (hc : c < 26) : encodeChar pb refl rs c < 26 := by
  have h0 : dictGet pb c c < 26 := (hpb c hc).1
  have h1 := foldr_r2l_lt rs h0
  have h2 := reflect_lt hrefl h1
  have h3 := foldl_l2r_lt rs h2
  simp only [encodeChar]
  exact (hpb _ h3).1

theorem encodeChar_involutive {pb : List (Nat × Nat)} {refl : List Nat}
    {rs : List InternalRotor} (hrs : RotorsInv rs) (hrefl : ReflOk refl)
    (hpb : PlugOk pb) {c : Nat} (hc : c < 26) :
    encodeChar pb refl rs (encodeChar pb refl rs c) = c := by
  have h0 : dictGet pb c c < 26 := (hpb c hc).1
  have h1 := foldr_r2l_lt rs h0
  have h2 := reflect_lt hrefl h1
  have h3 := foldl_l2r_lt rs h2
  simp only [encodeChar]
  rw [(hpb _ h3).2, foldr_foldl_inverse rs hrs h2, reflect_reflect hrefl h1,
    foldl_foldr_inverse rs hrs h0, (hpb c hc).2]

/-! ## The encode loop -/

/-- The checked signal path succeeds whenever the plugboard sends the
character into `ABC`. -/
theorem encodeCharChecked_ok {pb : List (Nat × Nat)} {refl : List Nat}
    {rs : List InternalRotor} {c : Nat} (h : dictGet pb c c < 26) :
    encodeCharChecked pb refl rs c = .ok (encodeChar pb refl rs c) := by
  unfold encodeCharChecked
  rw [if_pos h]

/-- The character loop never raises on letters once stepping is safe and
the plugboard maps letters to letters; it keeps all static rotor fields
and produces one output letter per input letter. -/
theorem encodeLoop_ok (ds : Bool) (pb : List (Nat × Nat)) (refl : List Nat)
    (hpb : ∀ c < 26, dictGet pb c c < 26) (msg : List Nat) :
    ∀ rs, StepSafe rs → (∀ c ∈ msg, c < 26) →
    ∃ rs' out, encodeLoop ds pb refl rs msg = .ok (rs', out) ∧
      out.length = msg.length ∧ coreEq rs rs' ∧ StepSafe rs' ∧
      (RotorsInv rs → RotorsInv rs') := by
  induction msg with
  | nil =>
    intro rs hs _
    exact ⟨rs, [], rfl, rfl, coreEq_refl rs, hs, id⟩
  | cons c cs ih =>
    intro rs hs hmem
    obtain ⟨rs1, hstep, hcore1, hinv1⟩ := stepRotors_ok ds rs hs
    have hs1 := stepSafe_of_coreEq hcore1 hs
    obtain ⟨rs', out, hloop, hlen, hcore2, hs2, hinv2⟩ :=
      ih rs1 hs1 (fun x hx => hmem x (by simp [hx]))
    refine ⟨rs', encodeChar pb refl rs1 c :: out, ?_, by simp [hlen],
      coreEq_trans hcore1 hcore2, hs2, fun h => hinv2 (hinv1 h)⟩
    have hd : dictGet pb c c < 26 := hpb c (hmem c (by simp))
    simp only [encodeLoop, hstep, encodeCharChecked_ok hd, hloop]

/-- Under safe stepping the character loop either succeeds or raises
`ValueError` (from a character outside `ABC`); it never raises any other
error. -/
theorem encodeLoop_errors (ds : Bool) (pb : List (Nat × Nat))
    (refl : List Nat) (msg : List Nat) : ∀ rs, StepSafe rs →
    (∃ p, encodeLoop ds pb refl rs msg = .ok p) ∨
      encodeLoop ds pb refl rs msg = .error .valueError := by
  induction msg with
  | nil =>
    intro rs _
    exact .inl ⟨(rs, []), rfl⟩
  | cons c cs ih =>
    intro rs hs
    obtain ⟨rs1, hstep, hcore1, _⟩ := stepRotors_ok ds rs hs
    have hs1 := stepSafe_of_coreEq hcore1 hs
    by_cases hd : dictGet pb c c < 26
    · rcases ih rs1 hs1 with ⟨⟨rsf, out⟩, hp⟩ | herr
      · exact .inl ⟨(rsf, encodeChar pb refl rs1 c :: out),
          by simp only [encodeLoop, hstep, encodeCharChecked_ok hd, hp]⟩
      · right
        simp only [encodeLoop, hstep, encodeCharChecked_ok hd, herr]
    · right
      have hchk : encodeCharChecked pb refl rs1 c = .error .valueError := by
        unfold encodeCharChecked
        rw [if_neg hd]
      simp only [encodeLoop, hstep, hchk]

/-- Full behaviour of the character loop on a machine satisfying the
invariants: it succeeds, produces letters, and running it again on its own
output from the same starting state returns the original message. -/
theorem encodeLoop_spec (ds : Bool) (pb : List (Nat × Nat)) (refl : List Nat)
    (hrefl : ReflOk refl) (hpb : PlugOk pb) (msg : List Nat) :
    ∀ rs, RotorsInv rs → StepSafe rs → (∀ c ∈ msg, c < 26) →
    ∃ rs' out, encodeLoop ds pb refl rs msg = .ok (rs', out) ∧
      (∀ c ∈ out, c < 26) ∧ out.length = msg.length ∧
      RotorsInv rs' ∧ StepSafe rs' ∧ coreEq rs rs' ∧
      encodeLoop ds pb refl rs out = .ok (rs', msg) := by
  induction msg with
  | nil =>
    intro rs hinv hs _
    exact ⟨rs, [], rfl, by simp, rfl, hinv, hs, coreEq_refl rs, rfl⟩
  | cons c cs ih =>
    intro rs hinv hs hmem
    obtain ⟨rs1, hstep, hcore1, hinv1⟩ := stepRotors_ok ds rs hs
    have hs1 := stepSafe_of_coreEq hcore1 hs
    have hinv1' := hinv1 hinv
    have hc : c < 26 := hmem c (by simp)
    obtain ⟨rs', out, hloop, houtlt, hlen, hinv', hs', hcore2, hrev⟩ :=
      ih rs1 hinv1' hs1 (fun x hx => hmem x (by simp [hx]))
    have hd : dictGet pb c c < 26 := (hpb c hc).1
    refine ⟨rs', encodeChar pb refl rs1 c :: out, ?_, ?_, by simp [hlen],
      hinv', hs', coreEq_trans hcore1 hcore2, ?_⟩
    · simp only [encodeLoop, hstep, encodeCharChecked_ok hd, hloop]
    · intro x hx
      rcases List.mem_cons.1 hx with rfl | hx
      · exact encodeChar_lt rs1 hrefl hpb hc
      · exact houtlt x hx
    · have hcc : encodeChar pb refl rs1 (encodeChar pb refl rs1 c) = c :=
        encodeChar_involutive hinv1' hrefl hpb hc
      have hd2 : dictGet pb (encodeChar pb refl rs1 c)
          (encodeChar pb refl rs1 c) < 26 :=
        (hpb _ (encodeChar_lt rs1 hrefl hpb hc)).1
      simp only [encodeLoop, hstep, encodeCharChecked_ok hd2, hrev, hcc]

/-! ## Position and ring setters -/

theorem pyIsAlphaStr_spec {g : List Nat} (hg : pyIsAlphaStr g = true) :
    g ≠ [] ∧ ∀ c ∈ g, pyIsAlphaChar c = true := by
  unfold pyIsAlphaStr at hg
  rw [Bool.and_eq_true] at hg
  constructor
  · intro hnil
    subst hnil
    simp at hg
  · exact fun c hc => List.all_eq_true.1 hg.2 c hc

theorem asciiLetters_spec {g : List Nat} (hg : asciiLetters g = true) :
    g ≠ [] ∧ ∀ c ∈ g, c < 52 := by
  unfold asciiLetters at hg
  rw [Bool.and_eq_true] at hg
  constructor
  · intro hnil
    subst hnil
    simp at hg
  · intro c hc
    have h := List.all_eq_true.1 hg.2 c hc
    simpa [alphaChar] using h

theorem asciiLetters_pyIsAlphaStr {g : List Nat} (hg : asciiLetters g = true) :
    pyIsAlphaStr g = true := by
  unfold asciiLetters at hg
  unfold pyIsAlphaStr
  rw [Bool.and_eq_true] at hg ⊢
  refine ⟨hg.1, List.all_eq_true.2 fun c hc => ?_⟩
  have h := List.all_eq_true.1 hg.2 c hc
  simp only [alphaChar, decide_eq_true_eq] at h
  simp only [pyIsAlphaChar, decide_eq_true_eq]
  omega

theorem asciiStr_upper_lt {g : List Nat} (hg : asciiLetters g = true) :
    ∀ p ∈ g.map upperChar, p < 26 := by
  intro p hp
  obtain ⟨c, hc, rfl⟩ := List.mem_map.1 hp
  exact upperChar_lt_of_lt52 ((asciiLetters_spec hg).2 c hc)

/-- Computation rule for the position-setting loop on a valid letter. -/
theorem setPositionsSt_cons {r : InternalRotor} {tl : List InternalRotor}
    {p : Nat} (hp : p < 26) (ps : List Nat) :
    setPositionsSt (r :: tl) (p :: ps) =
      (remapRotor { r with pos := p } :: (setPositionsSt tl ps).1,
        (setPositionsSt tl ps).2) := by
  have ha : abcIndex p = .ok p := by
    unfold abcIndex
    rw [if_pos hp]
  simp only [setPositionsSt, ha]

theorem setPositionsSt_ok (rs : List InternalRotor) (ps : List Nat)
    (hps : ∀ p ∈ ps, p < 26) : (setPositionsSt rs ps).2 = none := by
  induction ps generalizing rs with
  | nil => cases rs <;> rfl
  | cons p ps ih =>
    cases rs with
    | nil => rfl
    | cons r tl =>
      rw [setPositionsSt_cons (hps p (by simp)) ps]
      exact ih tl (fun x hx => hps x (by simp [hx]))

theorem setPositionsSt_coreEq (rs : List InternalRotor) (ps : List Nat)
    (hps : ∀ p ∈ ps, p < 26) : coreEq rs (setPositionsSt rs ps).1 := by
  induction ps generalizing rs with
  | nil => cases rs <;> exact coreEq_refl _
  | cons p ps ih =>
    cases rs with
    | nil => exact coreEq_refl _
    | cons r tl =>
      rw [setPositionsSt_cons (hps p (by simp)) ps]
      show List.map rotorCore (r :: tl) = _
      simp only [List.map_cons, List.cons.injEq]
      exact ⟨rfl, ih tl (fun x hx => hps x (by simp [hx]))⟩

theorem setPositionsSt_inv {rs : List InternalRotor} {ps : List Nat}
    (hrs : RotorsInv rs) (hps : ∀ p ∈ ps, p < 26) :
    RotorsInv (setPositionsSt rs ps).1 := by
  induction ps generalizing rs with
  | nil => cases rs <;> exact hrs
  | cons p ps ih =>
    cases rs with
    | nil => exact hrs
    | cons r tl =>
      rw [setPositionsSt_cons (hps p (by simp)) ps]
      intro x hx
      rcases List.mem_cons.1 hx with rfl | hx
      · obtain ⟨hw, hr, _, _⟩ := hrs r (by simp)
        exact ⟨hw, hr, hps p (by simp), rfl⟩
      · exact ih (fun y hy => hrs y (by simp [hy]))
          (fun y hy => hps y (by simp [hy])) x hx

/-- The result of the position-setting loop depends only on the static
rotor fields (wiring, notch, ring): rotor banks that agree on those are
sent to the same bank. -/
theorem setPositionsSt_congr {rs rs' : List InternalRotor}
    (h : coreEq rs rs') (ps : List Nat) (hps : ∀ p ∈ ps, p < 26)
    (hlen : ps.length = rs.length) :
    (setPositionsSt rs ps).1 = (setPositionsSt rs' ps).1 := by
  induction ps generalizing rs rs' with
  | nil =>
    have h0 : rs = [] := List.length_eq_zero.1 (by simpa using hlen.symm)
    have h1 : rs' = [] := List.length_eq_zero.1
      (by rw [← coreEq_length h]; simpa using hlen.symm)
    subst h0; subst h1
    rfl
  | cons p ps ih =>
    cases rs with
    | nil => simp at hlen
    | cons r tl =>
      cases rs' with
      | nil =>
        have := coreEq_length h
        simp at this
      | cons r' tl' =>
        have hh : rotorCore r = rotorCore r' ∧ coreEq tl tl' := by
          have := h
          show _ ∧ List.map rotorCore tl = List.map rotorCore tl'
          simpa [coreEq, List.map_cons, List.cons.injEq] using this
        have hp : p < 26 := hps p (by simp)
        rw [setPositionsSt_cons hp ps, setPositionsSt_cons hp ps]
        have hfields : remapRotor { r with pos := p } =
            remapRotor { r' with pos := p } := by
          obtain ⟨w, n, ring, pos, mp⟩ := r
          obtain ⟨w', n', ring', pos', mp'⟩ := r'
          simp only [rotorCore, Prod.mk.injEq] at hh
          obtain ⟨⟨hw, hn, hr⟩, _⟩ := hh
          subst hw; subst hn; subst hr
          rfl
        rw [hfields, ih hh.2 (fun y hy => hps y (by simp [hy])) (by simpa using hlen)]

/-- Successful path of the `grundstellung` setter. -/
theorem setGrundstellung_ok {rs : List InternalRotor} {g : List Nat}
    (hg : asciiLetters g = true) (hlen : g.length = rs.length) :
    setGrundstellung rs g = ((setPositionsSt rs (g.map upperChar)).1, none) := by
  have h2 : (setPositionsSt rs (g.map upperChar)).2 = none :=
    setPositionsSt_ok _ _ (asciiStr_upper_lt hg)
  simp only [setGrundstellung, asciiLetters_pyIsAlphaStr hg, Bool.not_true,
    Bool.false_eq_true, if_false, hlen]
  rw [if_neg (by omega)]
  exact Prod.ext rfl h2

/-! ## Behaviour of `encode` -/

/-- A message that fails `isalpha` (empty, or containing a non-letter)
makes `encode` raise `EnigmaError` before anything else happens. -/
theorem encode_invalid (m : Enigma) (msg grund : List Nat)
    (h : pyIsAlphaStr msg = false) :
    encode m msg grund = .error .enigmaError := by
  simp [encode, h]

/-- With safe stepping (notched rightmost rotors), `encode` without an
explicit start position succeeds on every valid message. -/
theorem encode_ok_of_stepSafe (m : Enigma) (msg : List Nat)
    (hs : StepSafe m.rotors)
    (hpb : ∀ c < 26, dictGet m.plugboard c c < 26)
    (hmsg : asciiLetters msg = true) :
    ∃ m' out, encode m msg [] = .ok (m', out) ∧ out.length = msg.length := by
  obtain ⟨rs', out, hloop, hlen, _, _, _⟩ :=
    encodeLoop_ok m.doublestep m.plugboard m.reflector hpb
      (msg.map upperChar) m.rotors hs (asciiStr_upper_lt hmsg)
  refine ⟨{ m with rotors := rs' }, out, ?_, by simpa using hlen⟩
  simp [encode, asciiLetters_pyIsAlphaStr hmsg, hloop]

/-- Master theorem behind encode/decode symmetry: encoding twice from the
same explicit start position returns the upper-cased message. -/
theorem doubleEncode_spec (m : Enigma) (msg P : List Nat) (hm : EnigmaInv m)
    (hP : asciiLetters P = true) (hPlen : P.length = m.rotors.length)
    (hmsg : asciiLetters msg = true) :
    doubleEncode m msg P = .ok (msg.map upperChar) := by
  obtain ⟨hn34, hrsInv, hsafe, hrefl, hpb⟩ := hm
  have hPu : ∀ p ∈ P.map upperChar, p < 26 := asciiStr_upper_lt hP
  have hPne : P.isEmpty = false :=
    List.isEmpty_eq_false.2 (asciiLetters_spec hP).1
  have hset := setGrundstellung_ok hP hPlen
  set rs0 := (setPositionsSt m.rotors (P.map upperChar)).1 with hrs0
  have hcore0 : coreEq m.rotors rs0 := setPositionsSt_coreEq _ _ hPu
  have hinv0 : RotorsInv rs0 := setPositionsSt_inv hrsInv hPu
  have hsafe0 : StepSafe rs0 := stepSafe_of_coreEq hcore0 hsafe
  have hmsgU : ∀ c ∈ msg.map upperChar, c < 26 := asciiStr_upper_lt hmsg
  obtain ⟨rs1, out, hloop, houtlt, hlen, hinv1, hsafe1, hcore1, hrev⟩ :=
    encodeLoop_spec m.doublestep m.plugboard m.reflector hrefl hpb
      (msg.map upperChar) rs0 hinv0 hsafe0 hmsgU
  have henc1 : encode m msg P = .ok ({ m with rotors := rs1 }, out) := by
    simp [encode, asciiLetters_pyIsAlphaStr hmsg, hPne, hset, hloop]
  have houtalpha : pyIsAlphaStr out = true := by
    unfold pyIsAlphaStr
    rw [Bool.and_eq_true]
    constructor
    · have hmsgne := (asciiLetters_spec hmsg).1
      have hml : msg.length ≠ 0 := by
        simpa [List.length_eq_zero] using hmsgne
      have : out.length ≠ 0 := by
        rw [hlen]
        simpa using hml
      simp [List.isEmpty_eq_false, ← List.length_eq_zero, this]
    · refine List.all_eq_true.2 fun c hc => ?_
      have := houtlt c hc
      simp only [pyIsAlphaChar, decide_eq_true_eq]
      omega
  have houtid : out.map upperChar = out := by
    rw [List.map_congr_left (fun c hc => upperChar_lt26 (houtlt c hc))]
    exact List.map_id' out
  have hset2 : setGrundstellung rs1 P = (rs0, none) := by
    have hl2 : P.length = rs1.length := by
      rw [hPlen]
      exact coreEq_length (coreEq_trans hcore0 hcore1)
    rw [setGrundstellung_ok hP hl2]
    have := setPositionsSt_congr
      (coreEq_symm (coreEq_trans hcore0 hcore1)) (P.map upperChar) hPu
      (by rw [List.length_map, hl2])
    rw [this]
  have henc2 : encode { m with rotors := rs1 } out P =
      .ok ({ m with rotors := rs1 }, msg.map upperChar) := by
    have hloop2 : encodeLoop m.doublestep m.plugboard m.reflector rs0
        (out.map upperChar) = .ok (rs1, msg.map upperChar) := by
      rw [houtid]
      exact hrev
    simp [encode, houtalpha, hPne, hset2, hloop2]
  simp only [doubleEncode, henc1, henc2]

/-! ## Setters reject without mutating -/

theorem mkRotorWiring_perm {w : List Nat} (hw : PermMapping w) :
    mkRotorWiring w = .ok w := by
  obtain ⟨hlen, hnd, hlt⟩ := hw
  have hne : w ≠ [] := by
    intro h
    subst h
    simp at hlen
  have hmapid : w.map upperChar = w := by
    rw [List.map_congr_left (fun c hc => upperChar_lt26 (hlt c hc))]
    exact List.map_id' w
  have hPy : pyIsAlphaStr w = true := by
    unfold pyIsAlphaStr
    rw [Bool.and_eq_true]
    refine ⟨by simp [List.isEmpty_eq_false.2 hne], ?_⟩
    refine List.all_eq_true.2 fun c hc => ?_
    have := hlt c hc
    simp only [pyIsAlphaChar, decide_eq_true_eq]
    omega
  simp [mkRotorWiring, hlen, List.Nodup.dedup hnd, hPy, hmapid]

theorem reflCheck_ok_iff (w : List Nat) (hw : PermMapping w) :
    ∀ l : List Nat, (∀ i ∈ l, i < 26) →
    (reflCheck w l = .ok () ↔ ∀ i ∈ l, w.getD i 0 = w.indexOf i) := by
  intro l hl
  induction l with
  | nil => simp [reflCheck]
  | cons i is ih =>
    have hi : i < 26 := hl i (by simp)
    have hmem : i ∈ w := permMapping_mem hw hi
    have hcont : w.contains i = true := by simp [hmem]
    have ih' := ih (fun x hx => hl x (by simp [hx]))
    unfold reflCheck
    rw [hcont]
    by_cases hgi : w.getD i 0 = w.indexOf i
    · simp only [Bool.not_true, Bool.false_eq_true, if_false]
      rw [if_neg (by simpa using hgi)]
      rw [ih', List.forall_mem_cons]
      exact (and_iff_right hgi).symm
    · simp only [Bool.not_true, Bool.false_eq_true, if_false]
      rw [if_pos hgi]
      constructor
      · intro hcontr
        exact absurd hcontr (by simp)
      · intro hall
        exact absurd (hall i (by simp)) hgi

theorem selfinv_iff_indexOf (w : List Nat) (hw : PermMapping w) :
    (∀ i < 26, w.getD i 0 = w.indexOf i) ↔
      (∀ i < 26, w.getD (w.getD i 0) 0 = i) := by
  obtain ⟨hlen, hnd, hlt⟩ := hw
  constructor
  · intro h i hi
    have hidx : w.indexOf i < w.length :=
      List.indexOf_lt_length.2 (permMapping_mem ⟨hlen, hnd, hlt⟩ hi)
    rw [h i hi, List.getD_eq_getElem _ _ hidx, List.getElem_indexOf hidx]
  · intro h i hi
    have hj : w.getD i 0 < w.length := by
      have hcl : i < w.length := by omega
      rw [List.getD_eq_getElem _ _ hcl]
      have := hlt _ (List.getElem_mem hcl)
      omega
    have hwi := h i hi
    rw [List.getD_eq_getElem _ _ hj] at hwi
    have hidx : w.indexOf i = w.getD i 0 := by
      nth_rewrite 1 [← hwi]
      exact List.indexOf_getElem hnd _ hj
    rw [hidx]

theorem mkReflector_eq (w : List Nat) (hw : PermMapping w) :
    mkReflector w = match reflCheck w (List.range 26) with
      | .error e => .error e
      | .ok _ => .ok w := by
  unfold mkReflector
  rw [mkRotorWiring_perm hw]

/-- A permutation wiring is accepted by the reflector constructor exactly
when it is self-inverse; no fixed-point condition is enforced. -/
theorem mkReflector_accept_iff (w : List Nat) (hw : PermMapping w) :
    (∃ w', mkReflector w = .ok w') ↔
      ∀ i < 26, w.getD (w.getD i 0) 0 = i := by
  rw [mkReflector_eq w hw, ← selfinv_iff_indexOf w hw]
  have hiff := reflCheck_ok_iff w hw (List.range 26)
    (fun i hi => List.mem_range.1 hi)
  constructor
  · rintro ⟨w', hw'⟩
    intro i hi
    cases hrc : reflCheck w (List.range 26) with
    | error e =>
      rw [hrc] at hw'
      exact absurd hw' (by simp)
    | ok u =>
      have hok : reflCheck w (List.range 26) = .ok () := by
        cases u
        exact hrc
      exact (hiff.1 hok) i (List.mem_range.2 hi)
  · intro h
    have hok : reflCheck w (List.range 26) = .ok () :=
      hiff.2 (fun i hi => h i (List.mem_range.1 hi))
    exact ⟨w, by rw [hok]⟩

/-! ## Plugboard construction -/

theorem dictGet_not_mem {d : List (Nat × Nat)} {k : Nat}
    (h : ∀ p ∈ d, p.1 ≠ k) (dflt : Nat) : dictGet d k dflt = dflt := by
  unfold dictGet
  have hnone : d.find? (fun p => p.1 == k) = none :=
    List.find?_eq_none.2 fun p hp => by simp [h p hp]
  rw [hnone]

theorem dictGet_mem {d : List (Nat × Nat)} (hnd : (d.map Prod.fst).Nodup)
    {k v : Nat} (h : (k, v) ∈ d) (dflt : Nat) : dictGet d k dflt = v := by
  induction d with
  | nil => simp at h
  | cons a tl ih =>
    rw [List.map_cons, List.nodup_cons] at hnd
    rcases List.mem_cons.1 h with rfl | htl
    · unfold dictGet
      rw [List.find?_cons_of_pos _ (by simp)]
    · have hne : a.1 ≠ k := by
        intro he
        exact hnd.1 (by rw [he]; exact List.mem_map.2 ⟨(k, v), htl, rfl⟩)
      unfold dictGet
      rw [List.find?_cons_of_neg _ (by simp [hne])]
      exact ih hnd.2 htl

theorem dictInsert_fresh {d : List (Nat × Nat)} {k : Nat}
    (h : ∀ p ∈ d, p.1 ≠ k) (v : Nat) : dictInsert d k v = d ++ [(k, v)] := by
  unfold dictInsert
  have hany : d.any (fun p => p.1 == k) = false :=
    List.any_eq_false.2 fun p hp => by simp [h p hp]
  rw [hany]
  rfl

/-- Invariant pushed through the plugboard-building fold: when every
letter of the remaining pairs is fresh and globally distinct after
upper-casing, the dict keeps pairwise distinct keys and stays symmetric. -/
theorem foldl_plugUpd_inv :
    ∀ (pairs : List (List Nat)) (d : List (Nat × Nat)),
      (∀ p ∈ pairs, p.length = 2) →
      ((pairs.flatten.map upperChar).Nodup) →
      ((d.map Prod.fst).Nodup ∧ ∀ q ∈ d, (q.2, q.1) ∈ d) →
      (∀ q ∈ d, ∀ c ∈ pairs.flatten, q.1 ≠ upperChar c) →
      ((pairs.foldl plugUpd d).map Prod.fst).Nodup ∧
        ∀ q ∈ pairs.foldl plugUpd d, (q.2, q.1) ∈ pairs.foldl plugUpd d := by
  intro pairs
  induction pairs with
  | nil =>
    intro d _ _ hd _
    exact hd
  | cons p rest ih =>
    intro d hshape hnd hd hfresh
    obtain ⟨a, b, rfl⟩ : ∃ a b, p = [a, b] := by
      have hp2 := hshape p (by simp)
      cases p with
      | nil => simp at hp2
      | cons a q =>
        cases q with
        | nil => simp at hp2
        | cons b q2 =>
          cases q2 with
          | nil => exact ⟨a, b, rfl⟩
          | cons x q3 => simp at hp2
    have hflat : (([a, b] :: rest).flatten) = a :: b :: rest.flatten := by
      simp
    rw [hflat] at hnd hfresh
    rw [List.map_cons, List.map_cons, List.nodup_cons, List.nodup_cons] at hnd
    obtain ⟨hA, hB, hrestnd⟩ := hnd
    have hab : upperChar a ≠ upperChar b := fun he => hA (by simp [he])
    have haneqb : a ≠ b := fun he => hab (by rw [he])
    have hupd : plugUpd d [a, b] =
        dictInsert (dictInsert d (upperChar a) (upperChar b))
          (upperChar b) (upperChar a) := by
      show (if (a == b) = true then d
        else dictInsert (dictInsert d (upperChar a) (upperChar b))
          (upperChar b) (upperChar a)) = _
      rw [if_neg (by simp [haneqb])]
    have hAfresh : ∀ q ∈ d, q.1 ≠ upperChar a := fun q hq =>
      hfresh q hq a (by simp)
    have hBfresh : ∀ q ∈ d, q.1 ≠ upperChar b := fun q hq =>
      hfresh q hq b (by simp)
    have hd' : plugUpd d [a, b] =
        d ++ [(upperChar a, upperChar b), (upperChar b, upperChar a)] := by
      rw [hupd, dictInsert_fresh hAfresh, dictInsert_fresh ?fr, List.append_assoc]
      · rfl
      case fr =>
        intro q hq
        rcases List.mem_append.1 hq with hq | hq
        · exact hBfresh q hq
        · have : q = (upperChar a, upperChar b) := by simpa using hq
          rw [this]
          exact fun he => hab he
    rw [List.foldl_cons, hd']
    set d2 := d ++ [(upperChar a, upperChar b), (upperChar b, upperChar a)]
      with hd2
    apply ih d2
    · exact fun q hq => hshape q (by simp [hq])
    · exact hrestnd
    · constructor
      · rw [hd2, List.map_append, List.nodup_append]
        refine ⟨hd.1, by simp [hab], ?_⟩
        intro x hx
        obtain ⟨q, hq, rfl⟩ := List.mem_map.1 hx
        intro hmem
        simp only [List.map_cons, List.map_nil, List.mem_cons,
          List.not_mem_nil, or_false] at hmem
        rcases hmem with h1 | h1
        · exact hAfresh q hq h1
        · exact hBfresh q hq h1
      · intro q hq
        rw [hd2] at hq ⊢
        rcases List.mem_append.1 hq with hq | hq
        · exact List.mem_append_left _ (hd.2 q hq)
        · rcases List.mem_cons.1 hq with rfl | hq
          · exact List.mem_append_right _ (by simp)
          · rcases List.mem_cons.1 hq with rfl | hq
            · exact List.mem_append_right _ (by simp)
            · simp at hq
    · intro q hq c hc
      rw [hd2] at hq
      have hcu : upperChar c ∈ (rest.flatten.map upperChar) :=
        List.mem_map.2 ⟨c, hc, rfl⟩
      rcases List.mem_append.1 hq with hq | hq
      · exact hfresh q hq c (by simp [hc])
      · rcases List.mem_cons.1 hq with rfl | hq
        · intro he
          have he' : upperChar a = upperChar c := he
          exact hA (by rw [he']; exact List.mem_cons_of_mem _ hcu)
        · rcases List.mem_cons.1 hq with rfl | hq
          · intro he
            have he' : upperChar b = upperChar c := he
            exact hB (by rw [he']; exact hcu)
          · simp at hq

/-- After a successful plugboard assignment whose letters are pairwise
distinct even after case-folding, the stored dict has pairwise distinct
keys and applying it twice is the identity. -/
theorem setPlugboard_involution (pairs : List (List Nat))
    (d : List (Nat × Nat)) (hok : setPlugboard pairs = .ok d)
    (hnd : (pairs.flatten.map upperChar).Nodup) :
    (d.map Prod.fst).Nodup ∧
      ∀ c : Nat, dictGet d (dictGet d c c) (dictGet d c c) = c := by
  by_cases hemp : pairs.isEmpty
  · have hd : d = [] := by
      unfold setPlugboard at hok
      rw [if_pos hemp] at hok
      simpa using hok.symm
    subst hd
    refine ⟨by simp, fun c => ?_⟩
    rw [dictGet_not_mem (by simp), dictGet_not_mem (by simp)]
  · unfold setPlugboard at hok
    rw [if_neg (by simpa using hemp)] at hok
    by_cases hc1 : (pairs.any (fun p => p.length ≠ 2) ||
        !(pyIsAlphaStr pairs.flatten)) = true
    · rw [if_pos hc1] at hok
      exact absurd hok (by simp)
    · rw [if_neg hc1] at hok
      by_cases hc2 : (pairs.flatten.any fun c => pairs.flatten.count c > 1) = true
      · rw [if_pos hc2] at hok
        exact absurd hok (by simp)
      · rw [if_neg hc2] at hok
        have hd : d = pairs.foldl plugUpd [] := by
          simpa using hok.symm
        subst hd
        have hc1' : (∀ x ∈ pairs, x.length = 2) ∧
            pyIsAlphaStr pairs.flatten = true := by
          simpa using hc1
        have hshape : ∀ p ∈ pairs, p.length = 2 := hc1'.1
        have hInv := foldl_plugUpd_inv pairs [] hshape hnd
          (by simp) (by simp)
        refine ⟨hInv.1, fun c => ?_⟩
        by_cases hk : ∃ v, (c, v) ∈ pairs.foldl plugUpd []
        · obtain ⟨v, hv⟩ := hk
          rw [dictGet_mem hInv.1 hv]
          have hvc : (v, c) ∈ pairs.foldl plugUpd [] := hInv.2 (c, v) hv
          rw [dictGet_mem hInv.1 hvc]
        · have hnk : ∀ p ∈ pairs.foldl plugUpd [], p.1 ≠ c := by
            intro p hp he
            exact hk ⟨p.2, by rw [← he]; simpa using hp⟩
          rw [dictGet_not_mem hnk, dictGet_not_mem hnk]

/-- A repeated character among the joined plugboard strings (counted
case-sensitively, before any upper-casing) makes the setter raise
`ValueError`, whichever of the two validation checks fires first. -/
theorem setPlugboard_dup_error (pairs : List (List Nat))
    (hdup : ¬ pairs.flatten.Nodup) :
    setPlugboard pairs = .error .valueError := by
  have hne : pairs.isEmpty = false := by
    cases pairs with
    | nil => exact absurd List.nodup_nil hdup
    | cons a l => rfl
  simp only [setPlugboard, hne, Bool.false_eq_true, if_false]
  by_cases hshape :
      (pairs.any (fun p => p.length ≠ 2) || !(pyIsAlphaStr pairs.flatten)) = true
  · rw [if_pos hshape]
  · rw [if_neg hshape]
    have h1 : ¬ ∀ a, pairs.flatten.count a ≤ 1 := by
      rw [← List.nodup_iff_count_le_one]
      exact hdup
    push_neg at h1
    obtain ⟨c, hc⟩ := h1
    have hmem : c ∈ pairs.flatten := List.count_pos_iff.1 (by omega)
    rw [if_pos (List.any_eq_true.2 ⟨c, hmem, by simpa using hc⟩)]

/-! ## Claim theorems -/

/-- Claim C1, counterexample: the claim fails as stated because `encode`
upper-cases its input; double-encoding the lowercase message `'a'`
(character 26) from start `AAA` returns `'A'` (character 0), not the
original plaintext. -/
theorem encode_lowercase_counterexample :
    doubleEncode e3 [26] [0, 0, 0] = .ok [0] ∧ ([0] : List Nat) ≠ [26] := by
  exact ⟨by rfl, by decide⟩

/-- Claim C1 (amended): for every machine satisfying the machine
invariants, every start position of ASCII letters of the right length,
and every nonempty message of ASCII letters, encoding the encoding with
the position reset in between returns the upper-cased message
(`M.encode(M.encode(msg, P), P) == msg.upper()`). -/
theorem encode_encode_eq_upper (m : Enigma) (msg P : List Nat)
    (hm : EnigmaInv m) (hP : asciiLetters P = true)
    (hPlen : P.length = m.rotors.length) (hmsg : asciiLetters msg = true) :
    doubleEncode m msg P = .ok (msg.map upperChar) :=
  doubleEncode_spec m msg P hm hP hPlen hmsg

/-- Witness for C1 at the machine (I, II, III) with reflector B: encoding
`HELLO` twice from `AAA` gives back `HELLO`. -/
theorem encode_encode_eq_upper_witness :
    doubleEncode e3 [7, 4, 11, 11, 14] [0, 0, 0] = .ok [7, 4, 11, 11, 14] := by
  have h := encode_encode_eq_upper e3 [7, 4, 11, 11, 14] [0, 0, 0]
    (by decide) (by decide) (by decide) (by decide)
  rw [h]
  rfl

/-- Claim C2: the M4 machine (BETA, V, VI, VIII) with thin reflector C,
rings `EPEL`, plugboard `AE BF CM DQ HU JN LX PR SZ VW`, started at
`NAEM`, encodes `QEOB` to `CDSZ`. -/
theorem m4_known_vector :
    mkEnigma [BETA, V, VI, VIII] UKWC_THIN [4, 15, 4, 11]
      [[0, 4], [1, 5], [2, 12], [3, 16], [7, 20], [9, 13], [11, 23],
        [15, 17], [18, 25], [21, 22]] true [] = .ok m4 ∧
    encodeOut m4 [16, 4, 14, 1] [13, 0, 4, 12] = .ok [2, 3, 18, 25] :=
  ⟨by rfl, by rfl⟩

/-- Claim C3: with rotors (I, II, III), reflector B and rings `AAA`,
encoding `HELLO` from `AAT` leaves the positions at `ABY`; from `ADT`
with double-stepping they end at `BFY`; from `ADT` without
double-stepping they end at `AEY`. -/
theorem doublestep_vectors :
    mkEnigma [I, II, III] UKWB [] [] true [] = .ok e3 ∧
    mkEnigma [I, II, III] UKWB [] [] false [] = .ok e3nods ∧
    encodeFinalPositions e3 [7, 4, 11, 11, 14] [0, 0, 19] = .ok [0, 1, 24] ∧
    encodeFinalPositions e3 [7, 4, 11, 11, 14] [0, 3, 19] = .ok [1, 5, 24] ∧
    encodeFinalPositions e3nods [7, 4, 11, 11, 14] [0, 3, 19] = .ok [0, 4, 24] :=
  ⟨by rfl, by rfl, by rfl, by rfl, by rfl⟩

/-- Claim C4: for every named rotor definition, ring value, position and
letter, the positioned rotor's two half-transforms are mutually
inverse. -/
theorem rotor_halves_involutive (b : Rotor)
    (hb : b ∈ [I, II, III, IV, V, VI, VII, VIII, BETA, GAMMA])
    (ring pos c : Nat) (hr : ring < 26) (hp : pos < 26) (hc : c < 26) :
    left2right (positionRotor b ring pos)
        (right2left (positionRotor b ring pos) c) = c ∧
      right2left (positionRotor b ring pos)
        (left2right (positionRotor b ring pos) c) = c := by
  have hw : PermMapping b.wiring := by
    have hall : ∀ x ∈ [I, II, III, IV, V, VI, VII, VIII, BETA, GAMMA],
        PermMapping x.wiring := by decide
    exact hall b hb
  have hrot : RotorInv (positionRotor b ring pos) := ⟨hw, hr, hp, rfl⟩
  exact ⟨rotorInv_l2r_r2l hrot hc, rotorInv_r2l_l2r hrot hc⟩

/-- Witness for C4 at rotor I, ring `A`, position `A`, letter `A`. -/
theorem rotor_halves_involutive_witness :
    left2right (positionRotor I 0 0) (right2left (positionRotor I 0 0) 0) = 0 ∧
      right2left (positionRotor I 0 0) (left2right (positionRotor I 0 0) 0) = 0 :=
  rotor_halves_involutive I (by decide) 0 0 0 (by decide) (by decide) (by decide)

/-- Claim C5: on a rotor state whose cached mapping is consistent (and
whose wiring is a 26-entry table with ring and position in range),
`turn()` is exactly equivalent to setting the position to
`(pos + 1) % 26` and recomputing the mapping with a full `remap()`. -/
theorem turn_refines_remap (r : InternalRotor) (hlen : r.wiring.length = 26)
    (hr : r.ring < 26) (hp : r.pos < 26)
    (hmap : r.mapping = remapping r.wiring r.ring r.pos) :
    turnRotor r = remapRotor { r with pos := (r.pos + 1) % 26 } := by
  obtain ⟨w, n, ring, pos, mp⟩ := r
  dsimp only at hlen hr hp hmap ⊢
  subst hmap
  simp only [turnRotor, remapRotor]
  rw [turn_mapping hlen hr hp]

/-- Witness for C5 at rotor I in its initial machine state. -/
theorem turn_refines_remap_witness :
    turnRotor (mkInternal I 0) =
      remapRotor { mkInternal I 0 with pos := ((mkInternal I 0).pos + 1) % 26 } :=
  turn_refines_remap (mkInternal I 0) (by decide) (by decide) (by decide)
    (by decide)

/-- Claim C6, counterexample: Python's `''.isalpha()` is false, so the
empty message — which contains no non-letter character — raises
`EnigmaError`; and the one-letter message `'é'` consists only of letters
(`'é'.isalpha()` is true), yet `encode` still raises — a `ValueError`
from `ABC.index('É')` after the case fold — instead of returning a
ciphertext. -/
theorem encode_message_validation_counterexample :
    (([] : List Nat).all pyIsAlphaChar = true ∧
      encode e3 [] [] = .error .enigmaError) ∧
    (pyIsAlphaStr [52] = true ∧
      encode e3 [52] [] = .error .valueError) :=
  ⟨⟨by decide, by rfl⟩, by decide, by rfl⟩

/-- Claim C6 (amended): on a machine satisfying the machine invariants,
`encode` raises `EnigmaError` exactly when the message fails Python's
`str.isalpha` test (it is empty or contains a non-letter character); a
message of letters outside `A`–`Z`/`a`–`z` passes that test but raises
`ValueError` at `ABC.index` instead of succeeding; every nonempty message
of ASCII letters returns a ciphertext of the same length without
raising. -/
theorem encode_validation (m : Enigma) (msg : List Nat) (hm : EnigmaInv m) :
    (encode m msg [] = .error .enigmaError ↔ pyIsAlphaStr msg = false) ∧
    (asciiLetters msg = true →
      ∃ m' out, encode m msg [] = .ok (m', out) ∧ out.length = msg.length) := by
  obtain ⟨_, _, hsafe, _, hpb⟩ := hm
  refine ⟨⟨?_, fun h => encode_invalid m msg [] h⟩,
    fun h => encode_ok_of_stepSafe m msg hsafe (fun c hc => (hpb c hc).1) h⟩
  intro h
  by_cases halpha : pyIsAlphaStr msg = true
  · exfalso
    rcases encodeLoop_errors m.doublestep m.plugboard m.reflector
        (msg.map upperChar) m.rotors hsafe with ⟨⟨rsf, out⟩, hp⟩ | herr
    · rw [show encode m msg [] = .ok ({ m with rotors := rsf }, out) from
        by simp [encode, halpha, hp]] at h
      simp at h
    · rw [show encode m msg [] = .error .valueError from
        by simp [encode, halpha, herr]] at h
      simp at h
  · simpa using halpha

/-- Witness for C6: on the machine (I, II, III) with reflector B, the
message `'A1'` raises `EnigmaError` exactly because it fails `isalpha`,
and the one-letter message `'A'` encodes successfully. -/
theorem encode_validation_witness :
    (encode e3 [0, 99] [] = .error .enigmaError ↔
      pyIsAlphaStr [0, 99] = false) ∧
    ∃ m' out, encode e3 [0] [] = .ok (m', out) ∧
      out.length = ([0] : List Nat).length :=
  ⟨(encode_validation e3 [0, 99] (by decide)).1,
    (encode_validation e3 [0] (by decide)).2 (by decide)⟩

/-- Claim C7, counterexample: the identity wiring maps every letter to
itself, yet the reflector constructor accepts it — no fixed-point check
is performed. -/
theorem reflector_fixed_point_accepted :
    mkReflector (List.range 26) = .ok (List.range 26) ∧
      (List.range 26).getD 0 0 = 0 :=
  ⟨by rfl, by rfl⟩

/-- Claim C7 (amended): a 26-letter permutation is accepted by the
reflector constructor exactly when it is self-inverse
(`wiring[wiring[c]] == c` for every letter); `wiring[c] != c` is not
required. -/
theorem reflector_accept_no_fixed_point_check (w : List Nat)
    (hw : PermMapping w) :
    (∃ w', mkReflector w = .ok w') ↔
      ∀ i < 26, w.getD (w.getD i 0) 0 = i :=
  mkReflector_accept_iff w hw

/-- Witness for C7 at reflector B's wiring. -/
theorem reflector_accept_no_fixed_point_check_witness :
    (∃ w', mkReflector UKWB = .ok w') ↔
      ∀ i < 26, UKWB.getD (UKWB.getD i 0) 0 = i :=
  reflector_accept_no_fixed_point_check UKWB (by decide)

/-- Claim C8, counterexample: the duplicate test counts characters
case-sensitively before upper-casing, so `['AB', 'aC']` (with `a` the
lowercase of `A`) is accepted, and the stored dict is not an involution:
`B` maps to `A` but `A` maps to `C`. -/
theorem plugboard_case_collision_counterexample :
    setPlugboard [[0, 1], [26, 2]] = .ok [(0, 2), (1, 0), (2, 0)] ∧
      upperChar 26 = upperChar 0 ∧
      dictGet [(0, 2), (1, 0), (2, 0)] 1 1 = 0 ∧
      dictGet [(0, 2), (1, 0), (2, 0)] 0 0 = 2 :=
  ⟨by rfl, by rfl, by rfl, by rfl⟩

/-- Claim C8 (amended): plugboard assignment fails with `ValueError`
whenever some character repeats among the joined pair strings compared
case-sensitively (the count runs before the case fold); and whenever
assignment succeeds with letters that remain pairwise distinct after
case-folding, the stored mapping is a partial involution: its keys are
pairwise distinct and applying it twice is the identity. -/
theorem plugboard_validation_and_involution (pairs : List (List Nat)) :
    (¬ pairs.flatten.Nodup → setPlugboard pairs = .error .valueError) ∧
    (∀ d, setPlugboard pairs = .ok d →
      (pairs.flatten.map upperChar).Nodup →
      (d.map Prod.fst).Nodup ∧
        ∀ c : Nat, dictGet d (dictGet d c c) (dictGet d c c) = c) :=
  ⟨setPlugboard_dup_error pairs,
    fun d hok hnd => setPlugboard_involution pairs d hok hnd⟩

/-- Witness for C8: the assignment `['AB', 'BC']` repeats `B` and is
rejected, while `['AB', 'CD']` succeeds and stores an involution. -/
theorem plugboard_validation_and_involution_witness :
    setPlugboard [[0, 1], [1, 2]] = .error .valueError ∧
    ∃ d, setPlugboard [[0, 1], [2, 3]] = .ok d ∧
      (d.map Prod.fst).Nodup ∧
      ∀ c : Nat, dictGet d (dictGet d c c) (dictGet d c c) = c := by
  refine ⟨(plugboard_validation_and_involution [[0, 1], [1, 2]]).1 (by decide),
    [(0, 1), (1, 0), (2, 3), (3, 2)], by rfl, ?_⟩
  exact (plugboard_validation_and_involution [[0, 1], [2, 3]]).2
    [(0, 1), (1, 0), (2, 3), (3, 2)] (by rfl) (by decide)

/-- Claim C10, counterexample: the rotors setter only validates the
leftmost slot of a 4-rotor machine, so `(BETA, I, II, GAMMA)` with thin
reflector C is accepted at construction, and `encode` then raises
`TypeError` when the notchless rightmost rotor GAMMA is tested with
`pos in None`. -/
theorem notchless_rotor_accepted_then_crashes :
    mkEnigma [BETA, I, II, GAMMA] UKWC_THIN [] [] true [] = .ok mBad ∧
      encode mBad [0] [] = .error .typeError :=
  ⟨by rfl, by rfl⟩

/-- Claim C10 (amended): whenever the two rightmost rotors of an accepted
machine carry notch sets — as in every historical configuration, where
BETA/GAMMA sit only leftmost — and the plugboard maps `ABC` letters to
`ABC` letters (true of every all-ASCII plug list, though the constructor
also accepts non-ASCII pairs that would make `ABC.index` raise),
`encode` completes on any message of ASCII letters and returns a
string, raising nothing during stepping. -/
theorem notched_fast_rotors_encode_total (m : Enigma) (msg : List Nat)
    (hsafe : StepSafe m.rotors)
    (hpb : ∀ c < 26, dictGet m.plugboard c c < 26)
    (hmsg : asciiLetters msg = true) :
    ∃ m' out, encode m msg [] = .ok (m', out) ∧ out.length = msg.length :=
  encode_ok_of_stepSafe m msg hsafe hpb hmsg

/-- Witness for C10 at the M4 machine. -/
theorem notched_fast_rotors_encode_total_witness :
    ∃ m' out, encode m4 [0] [] = .ok (m', out) ∧
      out.length = ([0] : List Nat).length :=
  notched_fast_rotors_encode_total m4 [0] (by decide) (by decide) (by decide)
